import Mathlib

/-!
Verification development for the ntbroker specification repository.

Part 1 embeds the Hierarchical Allocation Engine of `src/script.py`
(class `SpecificationGenerator`): the per-entry processing pipeline
`_get_package_sizes` → `_calculate_distribution` → `_validate_distribution`
→ `_process_chunks` / `_get_chunk` / `_get_identification_code` /
`_get_case_identification_code` / `_add_chunk_to_output`, and the
entry loop of `process_data`.

Part 2 embeds the Aggregation Builder of `src/txt/agregate.py`
(`clean_code`, `create_aggregation_xml`, `format_xml`), together with the
escaping behaviour of the serialization pipeline
(`xml.sax.saxutils.escape`, `ElementTree.tostring`, `minidom.toprettyxml`)
and the CDATA lexical rule needed to state the round-trip property.

Part 3 embeds the frame effect of `src/sku_qtin_outer_level2.py`
`process_data` on its `fort_qr` input (the in-place column conversions
at lines 57-58).
-/

/-- One row of the FORT_QR table, restricted to the columns that
`_add_chunk_to_output` copies into the output (`productNameRus`,
`productNameEng`, `identificationCode`). -/
structure PackRecord where
  productNameRus : String
  productNameEng : String
  identificationCode : String
deriving DecidableEq

/-- One output row, with the nine columns of `OUTPUT_COLUMNS` in
`script.py`.  Fields that `_add_chunk_to_output` sets to Python `None`
are `Option`-valued. -/
structure AllocationRow where
  productNameRus : String
  productNameEng : String
  identificationCode : String
  identificationCodeOuter : Option String
  identificationCodeCase : Option String
  identificationCodePallet : Option String
  invoiceNo : Option String
  invoiceDate : Option String
  totalAmount : Option String
deriving DecidableEq

/-- A packaging capacity as produced by `_get_package_sizes`:
`int(master_row['SIZE5'])` when the cell is present, `float('inf')`
when it is NaN. -/
inductive PkgSize where
  | fin (c : Nat)
  | inf
deriving DecidableEq

/-- Errors of the allocation engine.  `unevenCaseDistribution` and
`unevenMasterGroupDistribution` are the two `ValueError`s raised by
`_validate_distribution` (carrying the data interpolated into their
messages); `zeroDivisionError` models Python's `ZeroDivisionError` on
`n % 0`; `typeErrorRangeFloat` models the `TypeError` raised by
`range(full_chunks)` when `full_chunks` is the float `0.0` (which
happens exactly when SIZE5 is missing and validation passed). -/
inductive AllocError where
  | unevenCaseDistribution (gtinCase : String) (total : Nat) (size5 : PkgSize) (remainder : Nat)
  | unevenMasterGroupDistribution (gtinCase : String) (totalCases : Nat) (size2 : PkgSize) (remainder : Nat)
  | zeroDivisionError
  | typeErrorRangeFloat
deriving DecidableEq

/-- One catalog entry (a row of the master file) together with the code
pools that `_process_master_row` selects for it by GTIN filtering:
`unitPool` is `pack_rows` (rows with `GTIN == master_row['GTIN']`),
`casePool` is the `identificationCode` column of the rows with
`GTIN == master_row['GTIN Outer']` (used by `_get_identification_code`),
`masterPool` is the `identificationCode` column of `case_rows`
(rows with `GTIN == master_row['GTIN Case']`, used by
`_get_case_identification_code`).  `size5cell`/`size2cell` are the raw
SIZE5/SIZE2 cells, `none` modelling NaN. -/
structure CatalogEntry where
  gtinCase : String
  size5cell : Option Nat
  size2cell : Option Nat
  unitPool : List PackRecord
  casePool : List String
  masterPool : List String
deriving DecidableEq

/-- Embeds `_get_package_sizes`: `int(cell)` when present, else
`float('inf')`. -/
def _get_package_sizes (size5cell size2cell : Option Nat) : PkgSize × PkgSize :=
  (match size5cell with | some c => .fin c | none => .inf,
   match size2cell with | some g => .fin g | none => .inf)

/-- Python's `n % size` for a nonnegative int `n` and a size that is
either an int or `float('inf')`: `n % 0` raises `ZeroDivisionError`,
`n % float('inf')` evaluates to `n` (as a float), otherwise `n % c`. -/
def pymod (n : Nat) : PkgSize → Except AllocError Nat
  | .fin c => if c = 0 then .error .zeroDivisionError else .ok (n % c)
  | .inf => .ok n

/-- Embeds `_get_chunk`: `pack_rows.iloc[chunk_num*size5 : (chunk_num+1)*size5]`. -/
def _get_chunk (pool : List PackRecord) (chunkNum size5 : Nat) : List PackRecord :=
  (pool.drop (chunkNum * size5)).take size5

/-- Floor of the base-2 logarithm of the positive rational `g / c`:
the unique `e` with `2^e ≤ g/c < 2^(e+1)` (for `g, c ≥ 1`).  For
`g ≥ c` this is `Nat.log2 ⌊g/c⌋`; otherwise it is `-⌈log2 ⌈c/g⌉⌉`. -/
def floorLog2Rat (g c : Nat) : Int :=
  if c ≤ g then (Nat.log2 (g / c) : Int)
  else -((Nat.clog 2 ((c + g - 1) / g) : Int))

/-- Round the rational `A / B` to the nearest integer, ties to even
(the rounding used by IEEE-754 binary arithmetic). -/
def roundHalfEvenDiv (A B : Nat) : Nat :=
  let q := A / B
  let r := A % B
  if 2 * r < B then q
  else if B < 2 * r then q + 1
  else if q % 2 = 0 then q else q + 1

/-- The binary64 (Python `float`) value of `g / c` (true division of two
Python ints, which CPython rounds correctly to the nearest double),
represented exactly as `m · 2^(e-52)` with `m` the 53-bit-rounded
mantissa scaled to `[2^52, 2^53]` and `e = ⌊log2(g/c)⌋`.  The model
covers the normal range of binary64 (no overflow/subnormal handling,
which would need `g/c` outside `[2^-1022, 2^1024)`). -/
def floatMantissaExp (g c : Nat) : Nat × Int :=
  let e := floorLog2Rat g c
  if e ≤ 52 then
    (roundHalfEvenDiv (g * 2 ^ (52 - e).toNat) c, e)
  else
    (roundHalfEvenDiv g (c * 2 ^ (e - 52).toNat), e)

/-- Python's `int(i // (g / c))` for ints `i, g, c` (`c, g ≥ 1`): the
exact floor of `i` divided by the binary64 value of `g / c`.  (CPython's
float floor division, implemented via the exact `fmod` plus a rounding
correction, returns the mathematical floor of the quotient of the two
double operands; the model treats `i` as exactly representable, which
holds for `i < 2^53`.) -/
def pyFloorDivFloat (i g c : Nat) : Nat :=
  match floatMantissaExp g c with
  | (m, e) =>
    if e ≤ 52 then (i * 2 ^ (52 - e).toNat) / m
    else i / (m * 2 ^ (e - 52).toNat)

/-- Embeds the `case_index` computation of `_get_case_identification_code`:
`int(chunk_num // (size2 / size5))`, computed — as in the source — with
Python float (binary64) arithmetic, which can differ from the exact
rational `⌊chunk_num / (size2/size5)⌋` (e.g. `size5 = 3`, `size2 = 10`,
`chunk_num = 10`: the float computation yields 2, exact arithmetic 3).
The two agree whenever `size2 / size5` is an integer below `2^53`.  For
`size2 = inf`, `chunk_num // inf` is `0.0` so the index is `0`. -/
def caseIndex (chunkNum size5 : Nat) : PkgSize → Nat
  | .fin g => pyFloorDivFloat chunkNum g size5
  | .inf => 0

/-- Embeds the row constructed by `_add_chunk_to_output` for one
`pack_row` of a chunk: descriptive fields copied from the pack row, the
two ancestor codes attached, everything else `None`. -/
def mkAllocationRow (identificationOuter identificationCase : Option String)
    (p : PackRecord) : AllocationRow :=
  { productNameRus := p.productNameRus
    productNameEng := p.productNameEng
    identificationCode := p.identificationCode
    identificationCodeOuter := identificationOuter
    identificationCodeCase := identificationCase
    identificationCodePallet := none
    invoiceNo := none
    invoiceDate := none
    totalAmount := none }

/-- Embeds `_validate_distribution`: raise `unevenCaseDistribution` when
the remainder of packs is positive, then raise
`unevenMasterGroupDistribution` when `len(pack_rows) % size2 != 0`
(the message carries `total_cases = len(case_rows)`, `size2` and the
recomputed remainder). -/
def _validate_distribution (gtinCase : String) (packLen casesLen : Nat)
    (size5 size2 : PkgSize) (remainder : Nat) : Except AllocError Unit :=
  if 0 < remainder then
    .error (.unevenCaseDistribution gtinCase packLen size5 remainder)
  else
    match pymod packLen size2 with
    | .error err => .error err
    | .ok rem2 =>
      if rem2 ≠ 0 then
        .error (.unevenMasterGroupDistribution gtinCase casesLen size2 rem2)
      else .ok ()

/-- Embeds the loop of `_process_chunks`: for each `chunk_num` in
`range(full_chunks)`, look up `identification_outer` via
`_get_identification_code` (the code at index `chunk_num` of the
GTIN-Outer pool, `None` when out of range — exactly `List.getElem?`),
look up `identification_case` via `_get_case_identification_code`
(index `caseIndex` into `case_rows`, same out-of-range-is-`None`
policy), and append one output row per record of the chunk. -/
def _process_chunks (unitPool : List PackRecord) (casePool masterPool : List String)
    (fullChunks size5 : Nat) (size2 : PkgSize) : List AllocationRow :=
  (List.range fullChunks).flatMap fun chunkNum =>
    (_get_chunk unitPool chunkNum size5).map
      (mkAllocationRow casePool[chunkNum]? masterPool[caseIndex chunkNum size5 size2]?)

/-- Embeds `_process_master_row` for one catalog entry: resolve the
package sizes, compute the distribution (`full_chunks`, `remainder` —
with `size5 = inf`, Python yields `full_chunks = 0.0` and
`remainder = n`), validate it, then process the full chunks.  When
`size5` is `inf` and validation passed, `range(full_chunks)` receives
the float `0.0` and raises `TypeError`. -/
def _process_master_row (e : CatalogEntry) : Except AllocError (List AllocationRow) :=
  match _get_package_sizes e.size5cell e.size2cell with
  | (size5, size2) =>
    match pymod e.unitPool.length size5 with
    | .error err => .error err
    | .ok remainder =>
      match _validate_distribution e.gtinCase e.unitPool.length e.masterPool.length
          size5 size2 remainder with
      | .error err => .error err
      | .ok _ =>
        match size5 with
        | .inf => .error .typeErrorRangeFloat
        | .fin c =>
          .ok (_process_chunks e.unitPool e.casePool e.masterPool
                (e.unitPool.length / c) c size2)

/-- Embeds the entry loop of `process_data`: master rows are processed
in catalog order, rows accumulate in `output_df` in order, and the
first `ValueError` aborts the whole run (the caller never reaches
`save_to_excel`, so an error produces no finalized output at all). -/
def process_data : List CatalogEntry → Except AllocError (List AllocationRow)
  | [] => .ok []
  | e :: rest =>
    match _process_master_row e with
    | .error err => .error err
    | .ok rows =>
      match process_data rest with
      | .error err => .error err
      | .ok more => .ok (rows ++ more)

/-!
Part 2: the Aggregation Builder of `src/txt/agregate.py`.

Marking codes are modelled as `List Char` (Python `str` values, indexed
and sliced character-wise).
-/

/-- Embeds `clean_code`:
`''.join(char for char in code if ord(char) >= 0x20 and ord(char) != 0x7F)`
(the comprehension keeps exactly the characters with code point at least
0x20 and different from 0x7F, in order). -/
def clean_code : List Char → List Char
  | [] => []
  | c :: rest =>
    if 0x20 ≤ c.toNat ∧ c.toNat ≠ 0x7F then c :: clean_code rest
    else clean_code rest

/-- Errors of `create_aggregation_xml`: the two `ValueError`s, carrying
the counts interpolated into their messages (`"Файл с кодами блоков
пуст"` and `"Количество КИЗ (itemCount) не делится нацело на количество
блоков (groupCount)"`). -/
inductive AggError where
  | emptyGroupPool
  | unevenItemDistribution (itemCount groupCount : Nat)
deriving DecidableEq

/-- One `pack_content` element of the XML tree built by
`create_aggregation_xml`: `pack_code` stores the text that the code
assigns to the `pack_code` element (`escape(pack_code[:25])`), `cis`
stores the CDATA payloads recorded in `cdata_map` for the group's `cis`
children (`small_boxes[k][:21]`), in order. -/
structure PackContent where
  pack_code : List Char
  cis : List (List Char)
deriving DecidableEq

/-- The XML tree built by `create_aggregation_xml` together with its
`cdata_map`, abstracted to the data it carries: the organisation's
`LP_TIN` attribute and the ordered `pack_content` elements. -/
structure AggregationDocument where
  lpTin : String
  packs : List PackContent
deriving DecidableEq

/-- Embeds `xml.sax.saxutils.escape` (and equally the text escaping of
`ElementTree.tostring`'s `_escape_cdata`): the chained
`replace("&","&amp;")`, `replace("<","&lt;")`, `replace(">","&gt;")`,
whose net effect is this character-wise expansion (the replacement
strings contain no `<` or `>`, so later passes never rewrite the output
of earlier ones). -/
def escapeAmpLtGt (s : List Char) : List Char :=
  s.flatMap fun c =>
    if c = '&' then ['&', 'a', 'm', 'p', ';']
    else if c = '<' then ['&', 'l', 't', ';']
    else if c = '>' then ['&', 'g', 't', ';']
    else [c]

/-- Embeds the text escaping of `minidom`'s writer (`_write_data`),
used by `toprettyxml`: it additionally escapes the double quote. -/
def minidomEscape (s : List Char) : List Char :=
  s.flatMap fun c =>
    if c = '&' then ['&', 'a', 'm', 'p', ';']
    else if c = '<' then ['&', 'l', 't', ';']
    else if c = '"' then ['&', 'q', 'u', 'o', 't', ';']
    else if c = '>' then ['&', 'g', 't', ';']
    else [c]

/-- Recognize one of the five predefined XML entity references at the
start of the text following an ampersand: returns the decoded character
and the remaining input. -/
def entHead (t : List Char) : Option (Char × List Char) :=
  if t.take 4 = ['a', 'm', 'p', ';'] then some ('&', t.drop 4)
  else if t.take 3 = ['l', 't', ';'] then some ('<', t.drop 3)
  else if t.take 3 = ['g', 't', ';'] then some ('>', t.drop 3)
  else if t.take 5 = ['q', 'u', 'o', 't', ';'] then some ('"', t.drop 5)
  else if t.take 5 = ['a', 'p', 'o', 's', ';'] then some ('\'', t.drop 5)
  else none

lemma entHead_length {t : List Char} {d : Char} {r : List Char}
    (h : entHead t = some (d, r)) : r.length ≤ t.length := by
  unfold entHead at h
  split_ifs at h <;> (cases h; simp)

/-- Standard XML text-content unescaping (the inverse direction of the
serializers above, applied by `minidom.parseString` and by any
conforming reader of the rendered document): decode the five predefined
entities, pass every other character through. -/
def xmlUnescape (s : List Char) : List Char :=
  match s with
  | [] => []
  | c :: t =>
    if c = '&' then
      match h : entHead t with
      | some (d, r) => d :: xmlUnescape r
      | none => c :: xmlUnescape t
    else c :: xmlUnescape t
termination_by s.length
decreasing_by
  · have hlen := entHead_length h
    simp
    omega
  · simp
  · simp

/-- CDATA lexical rule: the content of a CDATA section extends to the
first occurrence of the terminator `]]>`. -/
def cdataLex : List Char → List Char
  | [] => []
  | [c] => [c]
  | [c, d] => [c, d]
  | c :: d :: e :: t =>
    if c = ']' ∧ d = ']' ∧ e = '>' then []
    else c :: cdataLex (d :: e :: t)

/-- Whether the string contains the CDATA terminator `]]>` as a
(contiguous) substring. -/
def hasCdataEnd : List Char → Bool
  | [] => false
  | [_] => false
  | [_, _] => false
  | c :: d :: e :: t =>
    if c = ']' ∧ d = ']' ∧ e = '>' then true
    else hasCdataEnd (d :: e :: t)

/-- Embeds `create_aggregation_xml`.  Checks: empty middle pool, then
`len(small_boxes) % len(middle_boxes) != 0`.  Then for each middle box
in enumeration order it creates a `pack_content` whose `pack_code` text
is `escape(pack_code[:25])` and attaches the next `kis_per_block`
unconsumed small-box codes, each recorded in the `cdata_map` truncated
to its first 21 characters (`small_boxes[cis_index][:21]`).  The
running `cis_index` of pack `j` starts at `j * kis_per_block`, and the
defensive `if cis_index >= len(small_boxes): break` is rendered by
`List.take` stopping at the end of the pool. -/
def create_aggregation_xml (middle_boxes small_boxes : List (List Char))
    (lp_tin : String) : Except AggError AggregationDocument :=
  if middle_boxes.length = 0 then .error .emptyGroupPool
  else if small_boxes.length % middle_boxes.length ≠ 0 then
    .error (.unevenItemDistribution small_boxes.length middle_boxes.length)
  else
    let kis_per_block := small_boxes.length / middle_boxes.length
    .ok { lpTin := lp_tin
          packs := middle_boxes.enum.map fun jg =>
            { pack_code := escapeAmpLtGt (jg.2.take 25)
              cis := ((small_boxes.drop (jg.1 * kis_per_block)).take kis_per_block).map
                       fun it => it.take 21 } }

/-- Boolean test that `pat` is a prefix of `s`, character-wise. -/
def startsWithTok : List Char → List Char → Bool
  | [], _ => true
  | _ :: _, [] => false
  | p :: ps, c :: cs => p == c && startsWithTok ps cs

/-- Boolean test that `pat` occurs as a contiguous substring of the
second argument (the occurrence test of Python's `bytes.replace`). -/
def containsTok (pat : List Char) : List Char → Bool
  | [] => startsWithTok pat []
  | c :: cs => startsWithTok pat (c :: cs) || containsTok pat cs

/-- Python's `replace` for a non-empty pattern `p :: ps`: rewrite every
(leftmost, non-overlapping) occurrence of the pattern by `rep`. -/
def pyReplaceAll (p : Char) (ps rep : List Char) (s : List Char) : List Char :=
  match s with
  | [] => []
  | c :: cs =>
    if startsWithTok (p :: ps) (c :: cs) = true then
      rep ++ pyReplaceAll p ps rep (cs.drop ps.length)
    else c :: pyReplaceAll p ps rep cs
termination_by s.length
decreasing_by
  · simp
    omega
  · simp

/-- Python's `replace`; the patterns used by `format_xml` (placeholder
tokens) are never empty, and an empty pattern is treated as a no-op. -/
def pyReplace (pat rep s : List Char) : List Char :=
  match pat with
  | [] => s
  | p :: ps => pyReplaceAll p ps rep s

/-- The decimal digit characters, as produced by Python string
formatting of a nonnegative int. -/
def digitChar : Nat → Char
  | 0 => '0' | 1 => '1' | 2 => '2' | 3 => '3' | 4 => '4'
  | 5 => '5' | 6 => '6' | 7 => '7' | 8 => '8' | _ => '9'

/-- Decimal digits of `n`, most significant first (Python `f"{n}"`). -/
def natDigits (n : Nat) : List Char :=
  if n < 10 then [digitChar n]
  else natDigits (n / 10) ++ [digitChar (n % 10)]
termination_by n
decreasing_by
  exact Nat.div_lt_self (by omega) (by omega)

/-- The stem shared by every placeholder token of
`create_aggregation_xml` (`__CDATA_CIS_`). -/
def placeholderStem : List Char :=
  ['_', '_', 'C', 'D', 'A', 'T', 'A', '_', 'C', 'I', 'S', '_']

/-- The placeholder `f"__CDATA_CIS_{cis_index}__"` that
`create_aggregation_xml` stores as the text of the `cis` element with
global item index `k`. -/
def placeholderTok (k : Nat) : List Char :=
  placeholderStem ++ (natDigits k ++ ['_', '_'])

/-- The CDATA section `format_xml` substitutes for one placeholder:
`<![CDATA[payload]]>`. -/
def cdataWrap (payload : List Char) : List Char :=
  ['<', '!', '[', 'C', 'D', 'A', 'T', 'A', '['] ++ (payload ++ [']', ']', '>'])

/-- The placeholder→CDATA substitution pass of `format_xml`, iterating
the `cdata_map` in insertion order (ascending global `cis_index`,
starting at `k0`) and replacing every occurrence of each placeholder
token in the text by the CDATA section of its payload. -/
def applyCdataMapFrom (k0 : Nat) (payloads : List (List Char)) (s : List Char) : List Char :=
  match payloads with
  | [] => s
  | pay :: rest =>
    applyCdataMapFrom (k0 + 1) rest (pyReplace (placeholderTok k0) (cdataWrap pay) s)

/-- The full substitution pass (`for placeholder, original_code in
cdata_map.items(): pretty_xml = pretty_xml.replace(...)`), applied to a
text region of the document.  A placeholder token consists of letters,
digits and underscores only, so an occurrence can never span the markup
between two text regions; the whole-document byte replace therefore
acts region by region, each region receiving the same full pass. -/
def applyCdataMap (payloads : List (List Char)) (s : List Char) : List Char :=
  applyCdataMapFrom 0 payloads s

/-- Expansion performed by minidom's text writer on input without
`&`, `<`, `>`: only the double quote is rewritten, to `&quot;`. -/
def qexpChar (c : Char) : List Char :=
  if c = '"' then ['&', 'q', 'u', 'o', 't', ';'] else [c]

/-- Rendered content of one `pack_code` element, following
`format_xml`: `ET.tostring` escapes the stored text once more
(`_escape_cdata`), `minidom.parseString` decodes that escaping back,
`toprettyxml` re-escapes with minidom's writer, and the final
byte-level pass substitutes CDATA sections for every placeholder token
occurring anywhere in the document — in particular inside this
element's rendered text.  `payloads` is the ordered list of `cdata_map`
values (`small_boxes[k][:21]`).  The argument `storedText` is the
stored element text (already `escape`d by `create_aggregation_xml`). -/
def renderPackCodeField (payloads : List (List Char)) (storedText : List Char) : List Char :=
  applyCdataMap payloads (minidomEscape (xmlUnescape (escapeAmpLtGt storedText)))

/-- Content a conforming XML reader recovers from a rendered `pack_code`
element: standard entity decoding. -/
def parsePackCodeField (rendered : List Char) : List Char :=
  xmlUnescape rendered

/-- Rendered content of the `cis` element with global item index `k`,
following `format_xml`: its text is the placeholder token
`__CDATA_CIS_k__` (which passes through both escaping passes unchanged
— it contains no markup-special characters), and the final substitution
pass rewrites placeholder tokens in it: the region's own token and,
inside the substituted payload, any later ones. -/
def renderCisField (payloads : List (List Char)) (k : Nat) : List Char :=
  applyCdataMap payloads (placeholderTok k)

/-- Content a conforming XML reader recovers from a rendered `cis`
element: after the `<![CDATA[` opener (9 characters), the CDATA section
extends to the first `]]>`. -/
def parseCisField (rendered : List Char) : List Char :=
  cdataLex (rendered.drop 9)

/-!
Part 3: the frame effect of `src/sku_qtin_outer_level2.py`
`process_data` on its `fort_qr` argument.
-/

/-- A pandas cell that is either still numeric (as loaded from Excel)
or already a string. -/
inductive Cell where
  | num (n : Nat)
  | str (s : String)
deriving DecidableEq

/-- Python `str()` conversion of a cell, as applied element-wise by
`Series.astype(str)`. -/
def cellAstypeStr : Cell → Cell
  | .num n => .str (toString n)
  | .str s => .str s

/-- A row of the `fort_qr` frame, restricted to the two columns that
`process_data` writes (`buyerSKU`, `GTIN`); `rest` stands for all the
remaining, untouched columns. -/
structure FortQrRow where
  buyerSKU : Cell
  gtin : Cell
  rest : String
deriving DecidableEq

/-- The state of the caller's `fort_qr` frame after
`process_data(master_file, fort_qr)` of `sku_qtin_outer_level2.py`
returns: lines 57-58 assign
`fort_qr['buyerSKU'] = fort_qr['buyerSKU'].astype(str)` and
`fort_qr['GTIN'] = fort_qr['GTIN'].astype(str)` in place on the frame
object the caller passed in; every later access (`merge` into a new
frame, boolean-mask filters, `.copy()` of `outer_matches`) only reads
`fort_qr`.  So the post-call frame is the input with those two columns
converted to strings. -/
def level2_process_data_fort_qr_after (fort_qr : List FortQrRow) : List FortQrRow :=
  fort_qr.map fun r =>
    { r with buyerSKU := cellAstypeStr r.buyerSKU, gtin := cellAstypeStr r.gtin }

/-- Packing function applied by `create_aggregation_xml` to the group at
enumeration index `j` with code `g` (see the comprehension inside
`create_aggregation_xml`). -/
def mkPackContent (small_boxes : List (List Char)) (kis_per_block : Nat)
    (j : Nat) (g : List Char) : PackContent :=
  { pack_code := escapeAmpLtGt (g.take 25)
    cis := ((small_boxes.drop (j * kis_per_block)).take kis_per_block).map
             fun it => it.take 21 }

/-- Whether a cell already holds a string (used to state when the
`astype(str)` normalization is a no-op). -/
def isStrCell : Cell → Bool
  | .num _ => false
  | .str _ => true

/-- Fixture: a unit pool of eight FORT_QR pack rows. -/
def wUnitPool : List PackRecord :=
  [⟨"р1", "n1", "u1"⟩, ⟨"р2", "n2", "u2"⟩, ⟨"р3", "n3", "u3"⟩, ⟨"р4", "n4", "u4"⟩,
   ⟨"р5", "n5", "u5"⟩, ⟨"р6", "n6", "u6"⟩, ⟨"р7", "n7", "u7"⟩, ⟨"р8", "n8", "u8"⟩]

/-- Fixture: a catalog entry with `SIZE5 = 2`, `SIZE2 = 4`, the
eight-code unit pool, four case codes and two master-group codes. -/
def wEntry : CatalogEntry :=
  { gtinCase := "04600000000001"
    size5cell := some 2
    size2cell := some 4
    unitPool := wUnitPool
    casePool := ["c0", "c1", "c2", "c3"]
    masterPool := ["m0", "m1"] }

/-- Fixture: like `wEntry` but with a one-element case pool and an empty
master-group pool (too short for the four chunks). -/
def wEntryShort : CatalogEntry :=
  { gtinCase := "04600000000002"
    size5cell := some 2
    size2cell := some 4
    unitPool := wUnitPool
    casePool := ["c0"]
    masterPool := [] }

/-- Fixture: a catalog entry with `SIZE5 = 5` and a 23-code unit pool
(the spec's uneven-distribution example, remainder 3). -/
def wEntryUneven : CatalogEntry :=
  { gtinCase := "04600000000003"
    size5cell := some 5
    size2cell := some 5
    unitPool := List.replicate 23 ⟨"р", "n", "u"⟩
    casePool := []
    masterPool := [] }

/-!
Supporting lemmas.
-/

lemma entHead_amp (r : List Char) : entHead ('a' :: 'm' :: 'p' :: ';' :: r) = some ('&', r) := rfl

lemma entHead_lt (r : List Char) : entHead ('l' :: 't' :: ';' :: r) = some ('<', r) := rfl

lemma entHead_gt (r : List Char) : entHead ('g' :: 't' :: ';' :: r) = some ('>', r) := rfl

lemma entHead_quot (r : List Char) : entHead ('q' :: 'u' :: 'o' :: 't' :: ';' :: r) = some ('"', r) := rfl

lemma xmlUnescape_nil : xmlUnescape [] = [] := by rw [xmlUnescape]

lemma xmlUnescape_ent (t : List Char) (d : Char) (r : List Char) (h : entHead t = some (d, r)) :
    xmlUnescape ('&' :: t) = d :: xmlUnescape r := by
  rw [xmlUnescape]
  rw [if_pos rfl]
  split <;> simp_all

lemma xmlUnescape_cons_of_ne (c : Char) (t : List Char) (h : c ≠ '&') :
    xmlUnescape (c :: t) = c :: xmlUnescape t := by
  rw [xmlUnescape]
  simp [h]

lemma xmlUnescape_escapeAmpLtGt (s : List Char) : xmlUnescape (escapeAmpLtGt s) = s := by
  induction s with
  | nil => exact xmlUnescape_nil
  | cons c t ih =>
    by_cases h1 : c = '&'
    · subst h1
      have he : escapeAmpLtGt ('&' :: t) = '&' :: 'a' :: 'm' :: 'p' :: ';' :: escapeAmpLtGt t := by
        simp [escapeAmpLtGt]
      rw [he, xmlUnescape_ent _ _ _ (entHead_amp _), ih]
    · by_cases h2 : c = '<'
      · subst h2
        have he : escapeAmpLtGt ('<' :: t) = '&' :: 'l' :: 't' :: ';' :: escapeAmpLtGt t := by
          simp [escapeAmpLtGt]
        rw [he, xmlUnescape_ent _ _ _ (entHead_lt _), ih]
      · by_cases h3 : c = '>'
        · subst h3
          have he : escapeAmpLtGt ('>' :: t) = '&' :: 'g' :: 't' :: ';' :: escapeAmpLtGt t := by
            simp [escapeAmpLtGt]
          rw [he, xmlUnescape_ent _ _ _ (entHead_gt _), ih]
        · have he : escapeAmpLtGt (c :: t) = c :: escapeAmpLtGt t := by
            simp [escapeAmpLtGt, h1, h2, h3]
          rw [he, xmlUnescape_cons_of_ne _ _ h1, ih]

lemma xmlUnescape_minidomEscape (s : List Char) : xmlUnescape (minidomEscape s) = s := by
  induction s with
  | nil => exact xmlUnescape_nil
  | cons c t ih =>
    by_cases h1 : c = '&'
    · subst h1
      have he : minidomEscape ('&' :: t) = '&' :: 'a' :: 'm' :: 'p' :: ';' :: minidomEscape t := by
        simp [minidomEscape]
      rw [he, xmlUnescape_ent _ _ _ (entHead_amp _), ih]
    · by_cases h2 : c = '<'
      · subst h2
        have he : minidomEscape ('<' :: t) = '&' :: 'l' :: 't' :: ';' :: minidomEscape t := by
          simp [minidomEscape]
        rw [he, xmlUnescape_ent _ _ _ (entHead_lt _), ih]
      · by_cases h4 : c = '"'
        · subst h4
          have he : minidomEscape ('"' :: t) = '&' :: 'q' :: 'u' :: 'o' :: 't' :: ';' :: minidomEscape t := by
            simp [minidomEscape]
          rw [he, xmlUnescape_ent _ _ _ (entHead_quot _), ih]
        · by_cases h3 : c = '>'
          · subst h3
            have he : minidomEscape ('>' :: t) = '&' :: 'g' :: 't' :: ';' :: minidomEscape t := by
              simp [minidomEscape]
            rw [he, xmlUnescape_ent _ _ _ (entHead_gt _), ih]
          · have he : minidomEscape (c :: t) = c :: minidomEscape t := by
              simp [minidomEscape, h1, h2, h3, h4]
            rw [he, xmlUnescape_cons_of_ne _ _ h1, ih]

lemma escapeAmpLtGt_eq_self (s : List Char)
    (h : ∀ ch ∈ s, ch ≠ '&' ∧ ch ≠ '<' ∧ ch ≠ '>') : escapeAmpLtGt s = s := by
  induction s with
  | nil => rfl
  | cons c t ih =>
    obtain ⟨hc, hrest⟩ : (c ≠ '&' ∧ c ≠ '<' ∧ c ≠ '>') ∧
        ∀ ch ∈ t, ch ≠ '&' ∧ ch ≠ '<' ∧ ch ≠ '>' := by
      constructor
      · exact h c (List.mem_cons_self c t)
      · intro ch hch
        exact h ch (List.mem_cons_of_mem c hch)
    have he : escapeAmpLtGt (c :: t) = c :: escapeAmpLtGt t := by
      simp [escapeAmpLtGt, hc.1, hc.2.1, hc.2.2]
    rw [he, ih hrest]

lemma cdataLex_terminator (t : List Char) : cdataLex (']' :: ']' :: '>' :: t) = [] := by
  simp [cdataLex]

lemma cdataLex_cons3 (c d e : Char) (t : List Char) (h : ¬(c = ']' ∧ d = ']' ∧ e = '>')) :
    cdataLex (c :: d :: e :: t) = c :: cdataLex (d :: e :: t) := by
  simp only [cdataLex, if_neg h]

lemma hasCdataEnd_false_parts {c d e : Char} {t : List Char}
    (h : hasCdataEnd (c :: d :: e :: t) = false) :
    ¬(c = ']' ∧ d = ']' ∧ e = '>') ∧ hasCdataEnd (d :: e :: t) = false := by
  by_cases hc : c = ']' ∧ d = ']' ∧ e = '>'
  · simp [hasCdataEnd, hc] at h
  · constructor
    · exact hc
    · simpa [hasCdataEnd, hc] using h

lemma cdataLex_append_terminator (p : List Char) (h : hasCdataEnd p = false) :
    cdataLex (p ++ [']', ']', '>']) = p := by
  induction p with
  | nil => simp [cdataLex]
  | cons c t ih =>
    cases t with
    | nil =>
      have hne : ¬(c = ']' ∧ (']' : Char) = ']' ∧ (']' : Char) = '>') := by
        rintro ⟨-, -, h3⟩
        exact absurd h3 (by decide)
      show cdataLex (c :: ']' :: ']' :: ['>']) = [c]
      rw [cdataLex_cons3 _ _ _ _ hne, cdataLex_terminator]
    | cons d t2 =>
      cases t2 with
      | nil =>
        have hne1 : ¬(c = ']' ∧ d = ']' ∧ (']' : Char) = '>') := by
          rintro ⟨-, -, h3⟩
          exact absurd h3 (by decide)
        have hne2 : ¬(d = ']' ∧ (']' : Char) = ']' ∧ (']' : Char) = '>') := by
          rintro ⟨-, -, h3⟩
          exact absurd h3 (by decide)
        show cdataLex (c :: d :: ']' :: ']' :: ['>']) = [c, d]
        rw [cdataLex_cons3 _ _ _ _ hne1, cdataLex_cons3 _ _ _ _ hne2, cdataLex_terminator]
      | cons e t3 =>
        obtain ⟨hne, htail⟩ := hasCdataEnd_false_parts h
        show cdataLex (c :: d :: e :: (t3 ++ [']', ']', '>'])) = c :: d :: e :: t3
        rw [cdataLex_cons3 _ _ _ _ hne]
        have hres := ih htail
        simp only [List.cons_append] at hres
        rw [hres]

lemma create_aggregation_xml_ok (m s : List (List Char)) (t : String)
    (hm : m.length ≠ 0) (hdvd : s.length % m.length = 0) :
    create_aggregation_xml m s t
      = .ok { lpTin := t
              packs := m.enum.map fun jg =>
                mkPackContent s (s.length / m.length) jg.1 jg.2 } := by
  simp [create_aggregation_xml, hm, hdvd, mkPackContent]

lemma create_aggregation_xml_packs_getElem (m s : List (List Char)) (t : String)
    (hm : m.length ≠ 0) (hdvd : s.length % m.length = 0) (j : Nat) (d : AggregationDocument)
    (hd : create_aggregation_xml m s t = .ok d) :
    d.packs[j]? = m[j]?.map (mkPackContent s (s.length / m.length) j) := by
  rw [create_aggregation_xml_ok m s t hm hdvd] at hd
  cases hd
  simp only [List.getElem?_map, List.getElem?_enum]
  cases h2 : m[j]? <;> simp [mkPackContent]

lemma create_aggregation_xml_ok_inv (m s : List (List Char)) (t : String)
    (d : AggregationDocument) (h : create_aggregation_xml m s t = .ok d) :
    m.length ≠ 0 ∧ s.length % m.length = 0
    ∧ d = { lpTin := t
            packs := m.enum.map fun jg =>
              mkPackContent s (s.length / m.length) jg.1 jg.2 } := by
  by_cases h1 : m.length = 0
  · rw [create_aggregation_xml, if_pos h1] at h
    cases h
  · by_cases h2 : s.length % m.length = 0
    · refine ⟨h1, h2, ?_⟩
      rw [create_aggregation_xml_ok m s t h1 h2] at h
      cases h
      rfl
    · rw [create_aggregation_xml, if_neg h1, if_pos h2] at h
      cases h

lemma flatMap_range'_length {α : Type} (f : Nat → List α) (c : Nat) :
    ∀ (m s : Nat), (∀ j, s ≤ j → j < s + m → (f j).length = c) →
      ((List.range' s m).flatMap f).length = m * c := by
  intro m
  induction m with
  | zero => intro s _; simp
  | succ m' ih =>
    intro s h
    rw [List.range'_succ]
    simp only [List.flatMap_cons, List.length_append]
    rw [h s (by omega) (by omega)]
    rw [ih (s + 1) (fun j h1 h2 => h j (by omega) (by omega))]
    ring

lemma flatMap_range'_drop {α : Type} (f : Nat → List α) (c : Nat) :
    ∀ (i m s : Nat), i ≤ m → (∀ j, s ≤ j → j < s + m → (f j).length = c) →
      ((List.range' s m).flatMap f).drop (i * c) = (List.range' (s + i) (m - i)).flatMap f := by
  intro i
  induction i with
  | zero => intro m s _ _; simp
  | succ i' ih =>
    intro m s him h
    cases m with
    | zero => omega
    | succ m' =>
      rw [List.range'_succ]
      simp only [List.flatMap_cons]
      have hlen : (f s).length = c := h s (by omega) (by omega)
      have hdd : ((f s ++ (List.range' (s + 1) m').flatMap f).drop ((i' + 1) * c))
          = (((f s ++ (List.range' (s + 1) m').flatMap f).drop c).drop (i' * c)) := by
        rw [List.drop_drop]
        congr 1
        ring
      rw [hdd, List.drop_left' hlen]
      rw [ih m' (s + 1) (by omega) (fun j h1 h2 => h j (by omega) (by omega))]
      have e1 : s + 1 + i' = s + (i' + 1) := by omega
      have e2 : m' - i' = m' + 1 - (i' + 1) := by omega
      rw [e1, e2]

lemma flatMap_range_slice {α : Type} (f : Nat → List α) (c m i : Nat) (hi : i < m)
    (h : ∀ j, j < m → (f j).length = c) :
    (((List.range m).flatMap f).drop (i * c)).take c = f i := by
  rw [List.range_eq_range']
  rw [flatMap_range'_drop f c i m 0 (by omega) (fun j h1 h2 => h j (by omega))]
  have hm : m - i = (m - i - 1) + 1 := by omega
  rw [hm, List.range'_succ]
  simp only [List.flatMap_cons, Nat.zero_add]
  exact List.take_left' (h i hi)

lemma flatMap_range_length {α : Type} (f : Nat → List α) (c m : Nat)
    (h : ∀ j, j < m → (f j).length = c) :
    ((List.range m).flatMap f).length = m * c := by
  rw [List.range_eq_range']
  exact flatMap_range'_length f c m 0 (fun j h1 h2 => h j (by omega))

lemma process_master_row_ok (e : CatalogEntry) (c g : Nat)
    (h5 : e.size5cell = some c) (h2 : e.size2cell = some g)
    (hc : c ≠ 0) (hg : g ≠ 0)
    (hd5 : e.unitPool.length % c = 0) (hd2 : e.unitPool.length % g = 0) :
    _process_master_row e
      = .ok (_process_chunks e.unitPool e.casePool e.masterPool
              (e.unitPool.length / c) c (.fin g)) := by
  simp [_process_master_row, _get_package_sizes, h5, h2, pymod, hc, hg,
    _validate_distribution, hd5, hd2]

lemma chunk_mul_le {n c j : Nat} (hc : 0 < c) (hd : n % c = 0) (hj : j < n / c) :
    (j + 1) * c ≤ n := by
  have h1 : j + 1 ≤ n / c := hj
  have h2 : (j + 1) * c ≤ (n / c) * c := Nat.mul_le_mul_right c h1
  have h3 : (n / c) * c = n := Nat.div_mul_cancel (Nat.dvd_of_mod_eq_zero hd)
  omega

lemma process_chunks_chunklen (unitPool : List PackRecord) (o cc : Option String)
    (c j : Nat) (hfit : (j + 1) * c ≤ unitPool.length) :
    ((_get_chunk unitPool j c).map (mkAllocationRow o cc)).length = c := by
  have hsplit : (j + 1) * c = j * c + c := by ring
  have hfit' : j * c + c ≤ unitPool.length := by omega
  simp [_get_chunk]
  omega

lemma process_chunks_length (unitPool : List PackRecord) (casePool masterPool : List String)
    (c : Nat) (size2 : PkgSize) (hc : 0 < c) (hd : unitPool.length % c = 0) :
    (_process_chunks unitPool casePool masterPool (unitPool.length / c) c size2).length
      = unitPool.length := by
  rw [_process_chunks]
  rw [flatMap_range_length _ c _ (fun j hj =>
    process_chunks_chunklen unitPool _ _ c j (chunk_mul_le hc hd hj))]
  exact Nat.div_mul_cancel (Nat.dvd_of_mod_eq_zero hd)

lemma process_chunks_slice (unitPool : List PackRecord) (casePool masterPool : List String)
    (c : Nat) (size2 : PkgSize) (hc : 0 < c) (hd : unitPool.length % c = 0)
    (i : Nat) (hi : i < unitPool.length / c) :
    (((_process_chunks unitPool casePool masterPool (unitPool.length / c) c size2).drop
        (i * c)).take c)
      = (_get_chunk unitPool i c).map
          (mkAllocationRow casePool[i]? masterPool[caseIndex i c size2]?) := by
  rw [_process_chunks]
  exact flatMap_range_slice _ c _ i hi (fun j hj =>
    process_chunks_chunklen unitPool _ _ c j (chunk_mul_le hc hd hj))

lemma process_chunks_pallet_none (unitPool : List PackRecord)
    (casePool masterPool : List String) (m c : Nat) (size2 : PkgSize) :
    ∀ r ∈ _process_chunks unitPool casePool masterPool m c size2,
      r.identificationCodePallet = none := by
  intro r hr
  rw [_process_chunks] at hr
  simp only [List.mem_flatMap, List.mem_map] at hr
  obtain ⟨j, _, p, _, rfl⟩ := hr
  rfl

lemma process_master_row_uneven_case (e : CatalogEntry) (c : Nat)
    (h5 : e.size5cell = some c) (hc : c ≠ 0)
    (hne : e.unitPool.length % c ≠ 0) :
    _process_master_row e
      = .error (.unevenCaseDistribution e.gtinCase e.unitPool.length (.fin c)
          (e.unitPool.length % c)) := by
  simp [_process_master_row, _get_package_sizes, h5, pymod, hc,
    _validate_distribution, Nat.pos_of_ne_zero hne]

lemma process_master_row_uneven_master (e : CatalogEntry) (c g : Nat)
    (h5 : e.size5cell = some c) (h2 : e.size2cell = some g)
    (hc : c ≠ 0) (hg : g ≠ 0)
    (hd5 : e.unitPool.length % c = 0) (hne : e.unitPool.length % g ≠ 0) :
    _process_master_row e
      = .error (.unevenMasterGroupDistribution e.gtinCase e.masterPool.length (.fin g)
          (e.unitPool.length % g)) := by
  simp [_process_master_row, _get_package_sizes, h5, h2, pymod, hc, hg,
    _validate_distribution, hd5, hne]

lemma process_data_error_of_mem (entries : List CatalogEntry) (e : CatalogEntry)
    (he : e ∈ entries) (err : AllocError) (h : _process_master_row e = .error err) :
    ∃ err2, process_data entries = .error err2 := by
  induction entries with
  | nil => cases he
  | cons a rest ih =>
    rcases List.mem_cons.mp he with rfl | hmem
    · exact ⟨err, by simp [process_data, h]⟩
    · cases ha : _process_master_row a with
      | error err3 => exact ⟨err3, by simp [process_data, ha]⟩
      | ok rows =>
        obtain ⟨err2, h2⟩ := ih hmem
        exact ⟨err2, by simp [process_data, ha, h2]⟩

lemma astype_fix (r : FortQrRow) (h1 : isStrCell r.buyerSKU = true)
    (h2 : isStrCell r.gtin = true) :
    ({ r with buyerSKU := cellAstypeStr r.buyerSKU, gtin := cellAstypeStr r.gtin }
      : FortQrRow) = r := by
  cases r with
  | mk b g rest =>
    cases b with
    | num n => simp [isStrCell] at h1
    | str sb =>
      cases g with
      | num n => simp [isStrCell] at h2
      | str sg => rfl

lemma caseIndex_exact (i c g : Nat) (hc : 0 < c) (hg : 0 < g) (hcg : c ∣ g)
    (hq : g / c < 2 ^ 53) :
    caseIndex i c (.fin g) = i / (g / c) := by
  obtain ⟨q, rfl⟩ := hcg
  have hq0 : 0 < q := by
    rcases Nat.eq_zero_or_pos q with h0 | h0
    · subst h0; simp at hg
    · exact h0
  have hdiv : c * q / c = q := Nat.mul_div_cancel_left q hc
  rw [hdiv] at hq ⊢
  have hcg2 : c ≤ c * q := Nat.le_mul_of_pos_right c hq0
  have hlog : Nat.log2 q ≤ 52 := by
    have h53 : Nat.log2 q < 53 := (Nat.log2_lt (by omega)).mpr hq
    omega
  have he : floorLog2Rat (c * q) c = (Nat.log2 q : Int) := by
    rw [floorLog2Rat, if_pos hcg2, hdiv]
  have he52 : ((Nat.log2 q : Int)) ≤ (52 : Int) := by omega
  have htn : ((52 : Int) - (Nat.log2 q : Int)).toNat = 52 - Nat.log2 q := by omega
  have hA : c * q * 2 ^ (52 - Nat.log2 q) = c * (q * 2 ^ (52 - Nat.log2 q)) := by ring
  have hm : roundHalfEvenDiv (c * q * 2 ^ (52 - Nat.log2 q)) c = q * 2 ^ (52 - Nat.log2 q) := by
    rw [roundHalfEvenDiv]
    have hqd : c * q * 2 ^ (52 - Nat.log2 q) / c = q * 2 ^ (52 - Nat.log2 q) := by
      rw [hA]; exact Nat.mul_div_cancel_left _ hc
    have hr : c * q * 2 ^ (52 - Nat.log2 q) % c = 0 := by
      rw [hA]; exact Nat.mul_mod_right c _
    simp [hqd, hr, hc]
  have hfme : floatMantissaExp (c * q) c
      = (q * 2 ^ (52 - Nat.log2 q), (Nat.log2 q : Int)) := by
    rw [floatMantissaExp, he]
    simp only [if_pos he52, htn, hm]
  rw [caseIndex, pyFloorDivFloat, hfme]
  simp only [if_pos he52, htn]
  exact Nat.mul_div_mul_right i q (by positivity)

/-!
Claim theorems.
-/

/-- C1: for a catalog entry whose unit pool has size `n` with
`n % unitsPerCase = 0` (`SIZE5 = c`) and `n % unitsPerMasterGroup = 0`
(`SIZE2 = g`), `allocate` (= `process_data` on the entry) succeeds and
emits exactly `n` rows for the entry; the rows form `n / c` contiguous
chunks of `c` rows, the chunk at index `i` being the `i`-th slice of the
unit pool in pool order, with case-level code `casePool[i]` (the
`identificationCodeOuter` column; `none` when out of range) and
master-group code `masterPool[⌊i / (g / c)⌋]` (the
`identificationCodeCase` column), and the pallet-level field always
`none`.  The claim's index formula `⌊i / (g/c)⌋` agrees with the
program's float computation `int(i // (g / c))` exactly when
`casesPerMasterGroup = g / c` is an integer (the spec's data model
declares `unitsPerMasterGroup` "a multiple of `unitsPerCase`" — made
explicit as the hypothesis `c ∣ g`) small enough to be an exact binary64
value (`g / c < 2^53`); outside that domain the float index can differ
(see `caseIndex`).  With `c = 12`, `g = 144`, `n = 288` this gives 24
chunks, chunks 0-11 mapping to master index 0 and chunks 12-23 to
master index 1. -/
theorem C1_allocation_rows_chunks (e : CatalogEntry) (c g : Nat)
    (h5 : e.size5cell = some c) (h2 : e.size2cell = some g)
    (hc : 0 < c) (hg : 0 < g) (hcg : c ∣ g) (hq : g / c < 2 ^ 53)
    (hd5 : e.unitPool.length % c = 0) (hd2 : e.unitPool.length % g = 0)
    (i : Nat) (hi : i < e.unitPool.length / c) :
    ∃ rows, _process_master_row e = .ok rows
      ∧ process_data [e] = .ok rows
      ∧ rows.length = e.unitPool.length
      ∧ (rows.drop (i * c)).take c
          = ((e.unitPool.drop (i * c)).take c).map
              (mkAllocationRow e.casePool[i]? e.masterPool[i / (g / c)]?)
      ∧ ∀ r ∈ rows, r.identificationCodePallet = none := by
  have hok := process_master_row_ok e c g h5 h2 (by omega) (by omega) hd5 hd2
  refine ⟨_, hok, ?_, ?_, ?_, ?_⟩
  · simp [process_data, hok]
  · exact process_chunks_length _ _ _ c _ hc hd5
  · rw [process_chunks_slice e.unitPool e.casePool e.masterPool c (.fin g) hc hd5 i hi,
      caseIndex_exact i c g hc hg hcg hq]
    rfl
  · exact process_chunks_pallet_none _ _ _ _ c _

/-- Witness for C1 at the fixture entry (`SIZE5 = 2`, `SIZE2 = 4`,
eight unit codes, chunk index 1). -/
theorem C1_allocation_rows_chunks_witness :
    ∃ rows, _process_master_row wEntry = .ok rows
      ∧ process_data [wEntry] = .ok rows
      ∧ rows.length = wEntry.unitPool.length
      ∧ (rows.drop (1 * 2)).take 2
          = ((wEntry.unitPool.drop (1 * 2)).take 2).map
              (mkAllocationRow wEntry.casePool[1]? wEntry.masterPool[1 / (4 / 2)]?)
      ∧ ∀ r ∈ rows, r.identificationCodePallet = none :=
  C1_allocation_rows_chunks wEntry 2 4 rfl rfl (by decide) (by decide) (by decide)
    (by decide) (by decide) (by decide) 1 (by decide)

/-- C2: a catalog entry with unit-pool size `n` and `n % unitsPerCase ≠ 0`
makes its processing fail with `unevenCaseDistribution` carrying
`remainder = n % unitsPerCase`; with `n % unitsPerCase = 0` but
`n % unitsPerMasterGroup ≠ 0` it fails with
`unevenMasterGroupDistribution`; and in either situation the whole
`allocate` run over any entry list containing the entry returns an
error, hence produces no output rows at all (the exception propagates
out of `process_data` before `save_to_excel` is reached, so no output
is finalized for any product). -/
theorem C2_uneven_distribution_aborts (entries : List CatalogEntry) (e : CatalogEntry)
    (he : e ∈ entries) (c g : Nat)
    (h5 : e.size5cell = some c) (h2 : e.size2cell = some g)
    (hc : 0 < c) (hg : 0 < g) :
    (e.unitPool.length % c ≠ 0 →
      _process_master_row e
        = .error (.unevenCaseDistribution e.gtinCase e.unitPool.length (.fin c)
            (e.unitPool.length % c)))
    ∧ (e.unitPool.length % c = 0 → e.unitPool.length % g ≠ 0 →
      _process_master_row e
        = .error (.unevenMasterGroupDistribution e.gtinCase e.masterPool.length (.fin g)
            (e.unitPool.length % g)))
    ∧ ((e.unitPool.length % c ≠ 0 ∨ e.unitPool.length % g ≠ 0) →
      ∃ err, process_data entries = .error err) := by
  refine ⟨?_, ?_, ?_⟩
  · intro hne
    exact process_master_row_uneven_case e c h5 (by omega) hne
  · intro hd5 hne
    exact process_master_row_uneven_master e c g h5 h2 (by omega) (by omega) hd5 hne
  · intro hbad
    by_cases hd5 : e.unitPool.length % c = 0
    · rcases hbad with hne | hne
      · exact absurd hd5 hne
      · exact process_data_error_of_mem entries e he _
          (process_master_row_uneven_master e c g h5 h2 (by omega) (by omega) hd5 hne)
    · exact process_data_error_of_mem entries e he _
        (process_master_row_uneven_case e c h5 (by omega) hd5)

/-- Witness for C2 at the fixture entry with 23 unit codes and
`SIZE5 = 5` (the spec's example: remainder 3). -/
theorem C2_uneven_distribution_aborts_witness :
    (wEntryUneven.unitPool.length % 5 ≠ 0 →
      _process_master_row wEntryUneven
        = .error (.unevenCaseDistribution wEntryUneven.gtinCase wEntryUneven.unitPool.length
            (.fin 5) (wEntryUneven.unitPool.length % 5)))
    ∧ (wEntryUneven.unitPool.length % 5 = 0 → wEntryUneven.unitPool.length % 5 ≠ 0 →
      _process_master_row wEntryUneven
        = .error (.unevenMasterGroupDistribution wEntryUneven.gtinCase
            wEntryUneven.masterPool.length (.fin 5) (wEntryUneven.unitPool.length % 5)))
    ∧ ((wEntryUneven.unitPool.length % 5 ≠ 0 ∨ wEntryUneven.unitPool.length % 5 ≠ 0) →
      ∃ err, process_data [wEntryUneven] = .error err) :=
  C2_uneven_distribution_aborts [wEntryUneven] wEntryUneven (by decide) 5 5 rfl rfl
    (by decide) (by decide)

/-- C3: `create_aggregation_xml` fails with `emptyGroupPool` exactly
when the group pool is empty, fails with `unevenItemDistribution`
(carrying `itemCount = len(itemCodes)` and `groupCount =
len(groupCodes)`, from which the claim's `remainder = itemCount %
groupCount` is determined) exactly when the group pool is non-empty and
`len(itemCodes) % len(groupCodes) ≠ 0`, and returns a document exactly
otherwise; on a failure no document value is produced at all. -/
theorem C3_aggregate_error_characterization (m s : List (List Char)) (t : String) :
    (create_aggregation_xml m s t = .error .emptyGroupPool ↔ m = [])
    ∧ (create_aggregation_xml m s t = .error (.unevenItemDistribution s.length m.length)
        ↔ m ≠ [] ∧ s.length % m.length ≠ 0)
    ∧ ((∃ d, create_aggregation_xml m s t = .ok d) ↔ m ≠ [] ∧ s.length % m.length = 0) := by
  by_cases hm : m.length = 0
  · have hm' : m = [] := List.length_eq_zero.mp hm
    subst hm'
    simp [create_aggregation_xml]
  · have hm' : m ≠ [] := by
      intro hcon
      subst hcon
      simp at hm
    by_cases hr : s.length % m.length = 0
    · refine ⟨?_, ?_, ?_⟩
      · simp [create_aggregation_xml, hm, hr, hm']
      · simp [create_aggregation_xml, hm, hr, hm']
      · constructor
        · intro _
          exact ⟨hm', hr⟩
        · intro _
          exact ⟨_, create_aggregation_xml_ok m s t hm hr⟩
    · simp [create_aggregation_xml, hm, hr, hm']

/-- C4: under the preconditions (non-empty group pool, item count
divisible by group count), the document has exactly one `pack_content`
per group code, in source order; the one at index `j` stores the text
`escape(truncate(groupCodes[j], 25))` (the code is truncated to 25
characters and escaped for structured-markup rendering, per
`pc.text = escape(pack_code[:25])`), and its items are exactly
`itemCodes[j*ipg : (j+1)*ipg]` in original order, each truncated to 21
characters.  With group pool `[B1, B2]` and six items, B1 receives
items 0-2 and B2 items 3-5 (see the witness). -/
theorem C4_aggregation_grouping (m s : List (List Char)) (t : String)
    (hm : m ≠ []) (hdvd : s.length % m.length = 0)
    (j : Nat) (gj : List Char) (hj : m[j]? = some gj) :
    ∃ d, create_aggregation_xml m s t = .ok d
      ∧ d.packs.length = m.length
      ∧ d.packs[j]? = some
          { pack_code := escapeAmpLtGt (gj.take 25)
            cis := ((s.drop (j * (s.length / m.length))).take (s.length / m.length)).map
                     fun it => it.take 21 } := by
  have hm0 : m.length ≠ 0 := fun h0 => hm (List.length_eq_zero.mp h0)
  have hok := create_aggregation_xml_ok m s t hm0 hdvd
  refine ⟨_, hok, ?_, ?_⟩
  · simp
  · rw [create_aggregation_xml_packs_getElem m s t hm0 hdvd j _ hok, hj]
    rfl

/-- Witness for C4 at the spec's example: groups `B1`, `B2`, six item
codes, group index 1 receives items 3-5. -/
theorem C4_aggregation_grouping_witness :
    ∃ d, create_aggregation_xml ["B1".data, "B2".data]
        ["i1".data, "i2".data, "i3".data, "i4".data, "i5".data, "i6".data] "9726009063"
        = .ok d
      ∧ d.packs.length = (["B1".data, "B2".data] : List (List Char)).length
      ∧ d.packs[1]? = some
          { pack_code := escapeAmpLtGt ("B2".data.take 25)
            cis := ((["i1".data, "i2".data, "i3".data, "i4".data, "i5".data,
                      "i6".data].drop (1 * (6 / 2))).take (6 / 2)).map
                     fun it => it.take 21 } := by
  have h := C4_aggregation_grouping ["B1".data, "B2".data]
    ["i1".data, "i2".data, "i3".data, "i4".data, "i5".data, "i6".data] "9726009063"
    (by decide) (by decide) 1 "B2".data (by decide)
  simpa using h

/-- C5 (code bug): the spec says a missing `unitsPerCase` capacity means
"no chunking, a single chunk holds all codes, no divisibility failure".
The code converts the missing `SIZE5` to `float('inf')`, for which
`n % float('inf') = n`, so `_validate_distribution` raises
`ValueError` (uneven-case distribution, remainder `n`) for every
non-empty pool — here evaluated at a three-code pool — instead of
emitting the pool as one chunk; the `float('inf')` sentinel makes the
unbounded intent explicit, so the validation raising on it is a slip in
the code, not in the spec. -/
theorem C5_missing_capacity_code_bug :
    _process_master_row
      { gtinCase := "04600000000004"
        size5cell := none
        size2cell := some 3
        unitPool := [⟨"р", "n", "u1"⟩, ⟨"р", "n", "u2"⟩, ⟨"р", "n", "u3"⟩]
        casePool := []
        masterPool := [] }
      = .error (.unevenCaseDistribution "04600000000004" 3 .inf 3) := rfl

/-- C7: when an entry passes the divisibility checks, processing
succeeds regardless of how short (or empty) the case and master-group
pools are — out-of-range ancestor lookups never raise — and every row
of a chunk whose index is out of range for an ancestor pool gets `none`
in that ancestor's code field (`rows['identificationCode'].iloc[index]
if index < len(rows) else None`).  The master-group condition is stated
with the claim's "computed master index", `caseIndex i c (.fin g)`,
i.e. the program's own `int(chunk_num // (size2 / size5))` float
computation. -/
theorem C7_out_of_range_ancestor_null (e : CatalogEntry) (c g : Nat)
    (h5 : e.size5cell = some c) (h2 : e.size2cell = some g)
    (hc : 0 < c) (hg : 0 < g)
    (hd5 : e.unitPool.length % c = 0) (hd2 : e.unitPool.length % g = 0)
    (i : Nat) (hi : i < e.unitPool.length / c) :
    ∃ rows, _process_master_row e = .ok rows
      ∧ (e.casePool.length ≤ i →
          ∀ r ∈ (rows.drop (i * c)).take c, r.identificationCodeOuter = none)
      ∧ (e.masterPool.length ≤ caseIndex i c (.fin g) →
          ∀ r ∈ (rows.drop (i * c)).take c, r.identificationCodeCase = none) := by
  have hok := process_master_row_ok e c g h5 h2 (by omega) (by omega) hd5 hd2
  have hslice := process_chunks_slice e.unitPool e.casePool e.masterPool c (.fin g) hc hd5 i hi
  refine ⟨_, hok, ?_, ?_⟩
  · intro hlen r hr
    rw [hslice] at hr
    simp only [List.mem_map] at hr
    obtain ⟨p, -, rfl⟩ := hr
    show e.casePool[i]? = none
    exact List.getElem?_eq_none hlen
  · intro hlen r hr
    rw [hslice] at hr
    simp only [List.mem_map] at hr
    obtain ⟨p, -, rfl⟩ := hr
    show e.masterPool[caseIndex i c (.fin g)]? = none
    exact List.getElem?_eq_none hlen

/-- Witness for C7 at the fixture entry with a one-element case pool and
an empty master-group pool, chunk index 1. -/
theorem C7_out_of_range_ancestor_null_witness :
    ∃ rows, _process_master_row wEntryShort = .ok rows
      ∧ (wEntryShort.casePool.length ≤ 1 →
          ∀ r ∈ (rows.drop (1 * 2)).take 2, r.identificationCodeOuter = none)
      ∧ (wEntryShort.masterPool.length ≤ caseIndex 1 2 (.fin 4) →
          ∀ r ∈ (rows.drop (1 * 2)).take 2, r.identificationCodeCase = none) :=
  C7_out_of_range_ancestor_null wEntryShort 2 4 rfl rfl (by decide) (by decide)
    (by decide) (by decide) 1 (by decide)

/-- C8 (counterexample): the claim bounds every emitted code field by
its maximum length (25 for group codes) "as it appears in the emitted
document".  A group code of six ampersands (raw length 6, within the
limit) is stored as `escape(code[:25])`, whose length is 30 > 25: the
truncation is applied to the raw code before escaping, so the emitted
field text can exceed the bound. -/
theorem C8_field_length_counterexample :
    create_aggregation_xml [['&', '&', '&', '&', '&', '&']] [['i']] "9726009063"
      = .ok { lpTin := "9726009063"
              packs := [{ pack_code := "&amp;&amp;&amp;&amp;&amp;&amp;".data
                          cis := [['i']] }] }
    ∧ ("&amp;&amp;&amp;&amp;&amp;&amp;".data.length = 30
        ∧ ¬("&amp;&amp;&amp;&amp;&amp;&amp;".data.length ≤ 25)) := by
  exact ⟨rfl, by decide, by decide⟩

/-- C8 (amended): the bounds hold for the code content before markup
escaping, and they are enforced by truncation rather than by an error:
in every document the builder returns, every item field has length at
most 21, and every group field is the escape of a raw code of length at
most 25 (so it may exceed 25 characters in escaped form exactly when
the raw code contains markup-special characters). -/
theorem C8_field_length_amended (m s : List (List Char)) (t : String) (d : AggregationDocument)
    (h : create_aggregation_xml m s t = .ok d) (p : PackContent) (hp : p ∈ d.packs) :
    (∀ it ∈ p.cis, it.length ≤ 21)
    ∧ ∃ raw, raw.length ≤ 25 ∧ p.pack_code = escapeAmpLtGt raw := by
  obtain ⟨h1, h2, rfl⟩ := create_aggregation_xml_ok_inv m s t d h
  simp only [List.mem_map] at hp
  obtain ⟨⟨j, g⟩, hmem, rfl⟩ := hp
  constructor
  · intro it hit
    simp only [mkPackContent, List.mem_map] at hit
    obtain ⟨x, hx, rfl⟩ := hit
    simp
  · exact ⟨g.take 25, by simp, rfl⟩

/-- Witness for C8 (amended) at the six-ampersand group code. -/
theorem C8_field_length_amended_witness :
    (∀ it ∈ ({ pack_code := "&amp;&amp;&amp;&amp;&amp;&amp;".data, cis := [['i']] }
        : PackContent).cis, it.length ≤ 21)
    ∧ ∃ raw, raw.length ≤ 25
        ∧ ({ pack_code := "&amp;&amp;&amp;&amp;&amp;&amp;".data, cis := [['i']] }
            : PackContent).pack_code = escapeAmpLtGt raw :=
  C8_field_length_amended [['&', '&', '&', '&', '&', '&']] [['i']] "9726009063"
    { lpTin := "9726009063"
      packs := [{ pack_code := "&amp;&amp;&amp;&amp;&amp;&amp;".data, cis := [['i']] }] }
    rfl _ (by decide)

/-- C9 (counterexample): the claim says neither `allocate` nor
`aggregate` mutates its inputs.  `process_data` of
`sku_qtin_outer_level2.py` assigns `fort_qr['buyerSKU'] =
fort_qr['buyerSKU'].astype(str)` and `fort_qr['GTIN'] =
fort_qr['GTIN'].astype(str)` in place on the caller's frame (lines
57-58): a frame whose cells are still numeric is different after the
call. -/
theorem C9_input_mutation_counterexample :
    level2_process_data_fort_qr_after [{ buyerSKU := .num 5, gtin := .num 7, rest := "r" }]
      ≠ [{ buyerSKU := .num 5, gtin := .num 7, rest := "r" }] := by
  decide

/-- C9 (amended): the `level2` revision's `process_data` does mutate its
`fort_qr` input, by normalizing the `buyerSKU` and `GTIN` columns to
strings in place; the mutation is exactly that normalization, so the
input is left unchanged precisely on frames whose two columns already
hold strings (the aggregation builder and the `script.py` engine are
modelled as pure functions of their inputs and construct fresh
outputs). -/
theorem C9_no_mutation_amended (rows : List FortQrRow)
    (h : ∀ r ∈ rows, isStrCell r.buyerSKU = true ∧ isStrCell r.gtin = true) :
    level2_process_data_fort_qr_after rows = rows := by
  induction rows with
  | nil => rfl
  | cons r t ih =>
    have hr := h r (List.mem_cons_self r t)
    have ht : ∀ x ∈ t, isStrCell x.buyerSKU = true ∧ isStrCell x.gtin = true :=
      fun x hx => h x (List.mem_cons_of_mem r hx)
    have htail := ih ht
    rw [level2_process_data_fort_qr_after] at htail ⊢
    rw [List.map_cons, astype_fix r hr.1 hr.2, htail]

/-- Witness for C9 (amended) at a one-row frame whose columns are
already strings. -/
theorem C9_no_mutation_amended_witness :
    level2_process_data_fort_qr_after
        [{ buyerSKU := .str "5", gtin := .str "7", rest := "r" }]
      = [{ buyerSKU := .str "5", gtin := .str "7", rest := "r" }] :=
  C9_no_mutation_amended [{ buyerSKU := .str "5", gtin := .str "7", rest := "r" }]
    (by decide)

/-- C10: `clean_code` returns exactly the characters with code point at
least `0x20` and different from `0x7F`, in their original relative
order (it equals the filter by that predicate); consequently it is
total, idempotent, length-non-increasing, and the identity exactly on
strings all of whose characters already satisfy the predicate. -/
theorem C10_clean_code_properties (s : List Char) :
    clean_code s = s.filter (fun c => decide (0x20 ≤ c.toNat ∧ c.toNat ≠ 0x7F))
    ∧ clean_code (clean_code s) = clean_code s
    ∧ (clean_code s).length ≤ s.length
    ∧ (clean_code s = s ↔ ∀ c ∈ s, 0x20 ≤ c.toNat ∧ c.toNat ≠ 0x7F) := by
  have hf : ∀ u : List Char,
      clean_code u = u.filter (fun c => decide (0x20 ≤ c.toNat ∧ c.toNat ≠ 0x7F)) := by
    intro u
    induction u with
    | nil => rfl
    | cons c t ih =>
      by_cases h : 0x20 ≤ c.toNat ∧ c.toNat ≠ 0x7F
      · simp only [clean_code, List.filter_cons, if_pos h, ih]
        simp [h]
      · simp only [clean_code, List.filter_cons, if_neg h, ih]
        simp [h]
  refine ⟨hf s, ?_, ?_, ?_⟩
  · rw [hf, hf, List.filter_filter]
    simp
  · rw [hf]
    exact s.length_filter_le _
  · rw [hf]
    constructor
    · intro h c hc
      have := List.filter_eq_self.mp h c hc
      simpa using this
    · intro h
      apply List.filter_eq_self.mpr
      intro a ha
      simpa using h a ha


lemma sw_nil_pat (s : List Char) : startsWithTok [] s = true := by
  cases s <;> rfl

lemma sw_nil_s (p : Char) (ps : List Char) : startsWithTok (p :: ps) [] = false := rfl

lemma sw_cons_unfold (p c : Char) (ps cs : List Char) :
    startsWithTok (p :: ps) (c :: cs) = ((p == c) && startsWithTok ps cs) := rfl

lemma sw_head_ne {p c : Char} (ps cs : List Char) (h : p ≠ c) :
    startsWithTok (p :: ps) (c :: cs) = false := by
  rw [sw_cons_unfold]
  simp [h]

lemma sw_two_ne {p q c d : Char} (ps cs : List Char) (h : ¬(p = c ∧ q = d)) :
    startsWithTok (p :: q :: ps) (c :: d :: cs) = false := by
  by_cases h1 : p = c
  · subst h1
    have h2 : q ≠ d := fun hq => h ⟨rfl, hq⟩
    rw [sw_cons_unfold, sw_head_ne _ _ h2]
    simp
  · exact sw_head_ne _ _ h1

lemma sw_self_append (s r : List Char) : startsWithTok s (s ++ r) = true := by
  induction s with
  | nil => exact sw_nil_pat r
  | cons c cs ih => simp [sw_cons_unfold, ih]

lemma sw_refl (s : List Char) : startsWithTok s s = true := by
  have := sw_self_append s []
  simpa using this

lemma sw_extend {pat u : List Char} (w : List Char) (h : startsWithTok pat u = true) :
    startsWithTok pat (u ++ w) = true := by
  induction pat generalizing u with
  | nil => exact sw_nil_pat _
  | cons p ps ih =>
    cases u with
    | nil => exact absurd h (by simp [sw_nil_s])
    | cons c cu =>
      rw [List.cons_append, sw_cons_unfold]
      rw [sw_cons_unfold] at h
      simp only [Bool.and_eq_true] at h ⊢
      exact ⟨h.1, ih h.2⟩

lemma sw_append_left {a b s : List Char} (h : startsWithTok (a ++ b) s = true) :
    startsWithTok a s = true := by
  induction a generalizing s with
  | nil => exact sw_nil_pat s
  | cons p ps ih =>
    cases s with
    | nil => exact absurd h (by rw [List.cons_append]; simp [sw_nil_s])
    | cons c cs =>
      rw [List.cons_append, sw_cons_unfold] at h
      rw [sw_cons_unfold]
      simp only [Bool.and_eq_true] at h ⊢
      exact ⟨h.1, ih h.2⟩

lemma sw_crossing {pat u : List Char} {zc : Char} (zr : List Char)
    (hz : ∀ ch ∈ pat, ch ≠ zc) (h : startsWithTok pat (u ++ zc :: zr) = true) :
    startsWithTok pat u = true := by
  induction pat generalizing u with
  | nil => exact sw_nil_pat u
  | cons p ps ih =>
    cases u with
    | nil =>
      rw [List.nil_append, sw_cons_unfold] at h
      simp only [Bool.and_eq_true, beq_iff_eq] at h
      exact absurd h.1 (hz p (List.mem_cons_self p ps))
    | cons c cu =>
      rw [List.cons_append, sw_cons_unfold] at h
      rw [sw_cons_unfold]
      simp only [Bool.and_eq_true] at h ⊢
      exact ⟨h.1, ih (fun ch hch => hz ch (List.mem_cons_of_mem p hch)) h.2⟩

lemma sw_append_same (w x y : List Char) :
    startsWithTok (w ++ x) (w ++ y) = startsWithTok x y := by
  induction w with
  | nil => rfl
  | cons c cw ih => simp [sw_cons_unfold, ih]

lemma contains_nil_s (p : Char) (ps : List Char) : containsTok (p :: ps) [] = false := rfl

lemma contains_cons_unfold (pat : List Char) (c : Char) (cs : List Char) :
    containsTok pat (c :: cs) = (startsWithTok pat (c :: cs) || containsTok pat cs) := rfl

lemma contains_mono_left {a s : List Char} (b : List Char) (ha : a ≠ [])
    (h : containsTok (a ++ b) s = true) : containsTok a s = true := by
  induction s with
  | nil =>
    cases a with
    | nil => exact absurd rfl ha
    | cons p ps => simp [containsTok, sw_nil_s] at h
  | cons c cs ih =>
    rw [contains_cons_unfold] at h ⊢
    rcases Bool.or_eq_true_iff.mp h with h1 | h2
    · exact Bool.or_eq_true_iff.mpr (Or.inl (sw_append_left h1))
    · exact Bool.or_eq_true_iff.mpr (Or.inr (ih h2))

lemma contains_mono_false {a s : List Char} (b : List Char) (ha : a ≠ [])
    (h : containsTok a s = false) : containsTok (a ++ b) s = false := by
  cases hc : containsTok (a ++ b) s with
  | false => rfl
  | true => exact absurd (contains_mono_left b ha hc) (by simp [h])

lemma contains_skip_head {p c : Char} (ps cs : List Char) (h : p ≠ c) :
    containsTok (p :: ps) (c :: cs) = containsTok (p :: ps) cs := by
  rw [contains_cons_unfold, sw_head_ne _ _ h]
  simp

lemma contains_skip_run {p : Char} (ps : List Char) {x : List Char} (r : List Char)
    (hx : ∀ ch ∈ x, p ≠ ch) :
    containsTok (p :: ps) (x ++ r) = containsTok (p :: ps) r := by
  induction x with
  | nil => rfl
  | cons c cx ih =>
    rw [List.cons_append, contains_skip_head _ _ (hx c (List.mem_cons_self c cx))]
    exact ih (fun ch hch => hx ch (List.mem_cons_of_mem c hch))

lemma contains_append_end {p : Char} {ps u : List Char} {zc : Char} (zr : List Char)
    (hu : containsTok (p :: ps) u = false)
    (hz : ∀ ch ∈ p :: ps, ch ≠ zc)
    (hz2 : containsTok (p :: ps) (zc :: zr) = false) :
    containsTok (p :: ps) (u ++ zc :: zr) = false := by
  induction u with
  | nil => exact hz2
  | cons c cu ih =>
    rw [contains_cons_unfold] at hu
    simp only [Bool.or_eq_false_iff] at hu
    rw [List.cons_append, contains_cons_unfold]
    simp only [Bool.or_eq_false_iff]
    constructor
    · cases hsw : startsWithTok (p :: ps) (c :: (cu ++ zc :: zr)) with
      | false => rfl
      | true =>
        have := sw_crossing (u := c :: cu) zr hz (by simpa using hsw)
        exact absurd this (by simp [hu.1])
    · exact ih hu.2

lemma repl_id {p : Char} {ps s : List Char} (rep : List Char)
    (h : containsTok (p :: ps) s = false) : pyReplaceAll p ps rep s = s := by
  induction s with
  | nil => rw [pyReplaceAll]
  | cons c cs ih =>
    rw [contains_cons_unfold] at h
    simp only [Bool.or_eq_false_iff] at h
    rw [pyReplaceAll, if_neg (by simp [h.1]), ih h.2]

lemma repl_exact (p : Char) (ps rep : List Char) :
    pyReplaceAll p ps rep (p :: ps) = rep := by
  rw [pyReplaceAll, if_pos (sw_refl (p :: ps)), List.drop_length, pyReplaceAll]
  simp

lemma pyReplace_id {pat s : List Char} (rep : List Char)
    (h : containsTok pat s = false) : pyReplace pat rep s = s := by
  cases pat with
  | nil =>
    cases s with
    | nil => simp [containsTok, sw_nil_pat] at h
    | cons c cs => simp [containsTok, sw_nil_pat] at h
  | cons p ps => exact repl_id rep h

lemma pyReplace_exact (p : Char) (ps rep : List Char) :
    pyReplace (p :: ps) rep (p :: ps) = rep := repl_exact p ps rep

lemma stem_ne_nil : placeholderStem ≠ [] := by decide

lemma tok_stem_mono {s : List Char} (k : Nat)
    (h : containsTok placeholderStem s = false) :
    containsTok (placeholderTok k) s = false := by
  rw [placeholderTok]
  exact contains_mono_false _ stem_ne_nil h

lemma applyCdataMapFrom_id (L : List (List Char)) (k0 : Nat) {s : List Char}
    (h : containsTok placeholderStem s = false) :
    applyCdataMapFrom k0 L s = s := by
  induction L generalizing k0 with
  | nil => rfl
  | cons pay rest ih =>
    rw [applyCdataMapFrom, pyReplace_id _ (tok_stem_mono k0 h)]
    exact ih (k0 + 1)

lemma natDigits_ne_nil (n : Nat) : natDigits n ≠ [] := by
  rw [natDigits]
  split
  · simp
  · simp

lemma natDigits_all_digit (n : Nat) :
    ∀ c ∈ natDigits n, ∃ d, d < 10 ∧ c = digitChar d := by
  induction n using Nat.strong_induction_on with
  | _ n ih =>
    rw [natDigits]
    split
    · intro c hc
      simp only [List.mem_singleton] at hc
      subst hc
      exact ⟨n, by omega, rfl⟩
    · intro c hc
      rw [List.mem_append] at hc
      rcases hc with hc | hc
      · exact ih (n / 10) (Nat.div_lt_self (by omega) (by omega)) c hc
      · simp only [List.mem_singleton] at hc
        subst hc
        exact ⟨n % 10, Nat.mod_lt n (by omega), rfl⟩

/-- Numeric value of a decimal digit character. -/
def digitVal (c : Char) : Nat := c.toNat - 48

lemma digitVal_digitChar {d : Nat} (hd : d < 10) : digitVal (digitChar d) = d := by
  interval_cases d <;> decide

lemma digitChar_ne_underscore {d : Nat} (hd : d < 10) : digitChar d ≠ '_' := by
  interval_cases d <;> decide

lemma natDigits_inj : ∀ a b : Nat, natDigits a = natDigits b → a = b := by
  intro a
  induction a using Nat.strong_induction_on with
  | _ a ih =>
    intro b hab
    have hA : natDigits a
        = if a < 10 then [digitChar a] else natDigits (a / 10) ++ [digitChar (a % 10)] := by
      rw [natDigits]
    have hB : natDigits b
        = if b < 10 then [digitChar b] else natDigits (b / 10) ++ [digitChar (b % 10)] := by
      rw [natDigits]
    rw [hA, hB] at hab
    by_cases ha : a < 10 <;> by_cases hb : b < 10
    · rw [if_pos ha, if_pos hb] at hab
      simp only [List.cons.injEq, and_true] at hab
      have := congrArg digitVal hab
      rwa [digitVal_digitChar ha, digitVal_digitChar hb] at this
    · rw [if_pos ha, if_neg hb] at hab
      have hlen := congrArg List.length hab
      have hpos : 0 < (natDigits (b / 10)).length :=
        List.length_pos.mpr (natDigits_ne_nil (b / 10))
      simp only [List.length_singleton, List.length_append, List.length_cons,
        List.length_nil] at hlen
      omega
    · rw [if_neg ha, if_pos hb] at hab
      have hlen := congrArg List.length hab
      have hpos : 0 < (natDigits (a / 10)).length :=
        List.length_pos.mpr (natDigits_ne_nil (a / 10))
      simp only [List.length_singleton, List.length_append, List.length_cons,
        List.length_nil] at hlen
      omega
    · rw [if_neg ha, if_neg hb] at hab
      have hrev := congrArg List.reverse hab
      simp only [List.reverse_append, List.reverse_cons, List.reverse_nil,
        List.nil_append, List.singleton_append, List.cons.injEq] at hrev
      have h1 : a % 10 = b % 10 := by
        have := congrArg digitVal hrev.1
        rwa [digitVal_digitChar (Nat.mod_lt a (by omega)),
          digitVal_digitChar (Nat.mod_lt b (by omega))] at this
      have h2 : natDigits (a / 10) = natDigits (b / 10) := by
        have := congrArg List.reverse hrev.2
        simpa using this
      have h3 : a / 10 = b / 10 :=
        ih (a / 10) (Nat.div_lt_self (by omega) (by omega)) (b / 10) h2
      omega

lemma tok_cons (k : Nat) : placeholderTok k
    = '_' :: '_' :: 'C' :: 'D' :: 'A' :: 'T' :: 'A' :: '_' :: 'C' :: 'I' :: 'S' :: '_'
      :: (natDigits k ++ ['_', '_']) := rfl

lemma stem_cons : placeholderStem
    = '_' :: ('_' :: 'C' :: 'D' :: 'A' :: 'T' :: 'A' :: '_' :: 'C' :: 'I' :: 'S' :: '_' :: []) := rfl

lemma sw_digits {a : List Char} (x y : List Char)
    (ha : ∀ c ∈ a, ∃ d, d < 10 ∧ c = digitChar d) :
    ∀ {b : List Char}, (∀ c ∈ b, ∃ d, d < 10 ∧ c = digitChar d) →
      startsWithTok (a ++ '_' :: '_' :: x) (b ++ '_' :: '_' :: y) = true → a = b := by
  induction a generalizing x with
  | nil =>
    intro b hb h
    cases b with
    | nil => rfl
    | cons d b2 =>
      rw [List.nil_append, List.cons_append] at h
      obtain ⟨dv, hdv, rfl⟩ := hb d (List.mem_cons_self d b2)
      rw [sw_head_ne _ _ (Ne.symm (digitChar_ne_underscore hdv))] at h
      exact absurd h (by simp)
  | cons c a2 ih =>
    intro b hb h
    cases b with
    | nil =>
      rw [List.cons_append, List.nil_append] at h
      obtain ⟨dv, hdv, rfl⟩ := ha c (List.mem_cons_self c a2)
      rw [sw_head_ne _ _ (digitChar_ne_underscore hdv)] at h
      exact absurd h (by simp)
    | cons d b2 =>
      rw [List.cons_append, List.cons_append, sw_cons_unfold] at h
      simp only [Bool.and_eq_true, beq_iff_eq] at h
      have hrec := ih x (fun e he => ha e (List.mem_cons_of_mem c he))
        (fun e he => hb e (List.mem_cons_of_mem d he)) h.2
      rw [h.1, hrec]

lemma tok_sw_inj {j k : Nat}
    (h : startsWithTok (placeholderTok j) (placeholderTok k) = true) : j = k := by
  rw [placeholderTok, placeholderTok, sw_append_same] at h
  exact natDigits_inj _ _ (sw_digits [] [] (natDigits_all_digit j)
    (natDigits_all_digit k) h)

lemma natDigits_no_underscore (k : Nat) : ∀ ch ∈ natDigits k, '_' ≠ ch := by
  intro ch hch
  obtain ⟨dv, hdv, rfl⟩ := natDigits_all_digit k ch hch
  exact Ne.symm (digitChar_ne_underscore hdv)

lemma tok_contains_tok {j k : Nat} (hjk : j ≠ k) :
    containsTok (placeholderTok j) (placeholderTok k) = false := by
  have h0 : startsWithTok (placeholderTok j) (placeholderTok k) = false := by
    cases hsw : startsWithTok (placeholderTok j) (placeholderTok k) with
    | false => rfl
    | true => exact absurd (tok_sw_inj hsw) hjk
  have s1 : startsWithTok (placeholderTok j)
      ('_' :: 'C' :: 'D' :: 'A' :: 'T' :: 'A' :: '_' :: 'C' :: 'I' :: 'S' :: '_'
        :: (natDigits k ++ ['_', '_'])) = false := by
    rw [tok_cons j]
    exact sw_two_ne _ _ (by decide)
  have s2 : startsWithTok (placeholderTok j)
      ('C' :: 'D' :: 'A' :: 'T' :: 'A' :: '_' :: 'C' :: 'I' :: 'S' :: '_'
        :: (natDigits k ++ ['_', '_'])) = false := by
    rw [tok_cons j]
    exact sw_head_ne _ _ (by decide)
  have s3 : startsWithTok (placeholderTok j)
      ('D' :: 'A' :: 'T' :: 'A' :: '_' :: 'C' :: 'I' :: 'S' :: '_'
        :: (natDigits k ++ ['_', '_'])) = false := by
    rw [tok_cons j]
    exact sw_head_ne _ _ (by decide)
  have s4 : startsWithTok (placeholderTok j)
      ('A' :: 'T' :: 'A' :: '_' :: 'C' :: 'I' :: 'S' :: '_'
        :: (natDigits k ++ ['_', '_'])) = false := by
    rw [tok_cons j]
    exact sw_head_ne _ _ (by decide)
  have s5 : startsWithTok (placeholderTok j)
      ('T' :: 'A' :: '_' :: 'C' :: 'I' :: 'S' :: '_' :: (natDigits k ++ ['_', '_'])) = false := by
    rw [tok_cons j]
    exact sw_head_ne _ _ (by decide)
  have s6 : startsWithTok (placeholderTok j)
      ('A' :: '_' :: 'C' :: 'I' :: 'S' :: '_' :: (natDigits k ++ ['_', '_'])) = false := by
    rw [tok_cons j]
    exact sw_head_ne _ _ (by decide)
  have s7 : startsWithTok (placeholderTok j)
      ('_' :: 'C' :: 'I' :: 'S' :: '_' :: (natDigits k ++ ['_', '_'])) = false := by
    rw [tok_cons j]
    exact sw_two_ne _ _ (by decide)
  have s8 : startsWithTok (placeholderTok j)
      ('C' :: 'I' :: 'S' :: '_' :: (natDigits k ++ ['_', '_'])) = false := by
    rw [tok_cons j]
    exact sw_head_ne _ _ (by decide)
  have s9 : startsWithTok (placeholderTok j)
      ('I' :: 'S' :: '_' :: (natDigits k ++ ['_', '_'])) = false := by
    rw [tok_cons j]
    exact sw_head_ne _ _ (by decide)
  have s10 : startsWithTok (placeholderTok j)
      ('S' :: '_' :: (natDigits k ++ ['_', '_'])) = false := by
    rw [tok_cons j]
    exact sw_head_ne _ _ (by decide)
  have s11 : startsWithTok (placeholderTok j) ('_' :: (natDigits k ++ ['_', '_'])) = false := by
    cases hnd : natDigits k with
    | nil => exact absurd hnd (natDigits_ne_nil k)
    | cons d dtl =>
      obtain ⟨dv, hdv, hd⟩ := natDigits_all_digit k d (by rw [hnd]; exact List.mem_cons_self d dtl)
      subst hd
      rw [List.cons_append, tok_cons j]
      refine sw_two_ne _ _ ?_
      rintro ⟨-, h2⟩
      exact absurd h2.symm (digitChar_ne_underscore hdv)
  have stail : containsTok (placeholderTok j) (natDigits k ++ ['_', '_'])
      = containsTok (placeholderTok j) ['_', '_'] := by
    rw [tok_cons j]
    exact contains_skip_run _ _ (natDigits_no_underscore k)
  have send : containsTok (placeholderTok j) ['_', '_'] = false := by
    rw [tok_cons j]
    simp [containsTok, startsWithTok]
  rw [tok_cons k] at h0
  rw [tok_cons k]
  simp only [contains_cons_unfold, Bool.or_eq_false_iff]
  exact ⟨h0, s1, s2, s3, s4, s5, s6, s7, s8, s9, s10, s11, by rw [stail]; exact send⟩

lemma wrap_stem_free {payload : List Char}
    (h : containsTok placeholderStem payload = false) :
    containsTok placeholderStem (cdataWrap payload) = false := by
  rw [stem_cons] at h ⊢
  rw [cdataWrap]
  rw [contains_skip_run _ _ (by decide :
    ∀ ch ∈ ['<', '!', '[', 'C', 'D', 'A', 'T', 'A', '['], '_' ≠ ch)]
  exact contains_append_end _ h (by decide) (by decide)

lemma applyCdataMapFrom_region (L : List (List Char)) :
    ∀ (k0 t : Nat) (pay : List Char), L[t]? = some pay →
      (∀ x ∈ L, containsTok placeholderStem x = false) →
      applyCdataMapFrom k0 L (placeholderTok (k0 + t)) = cdataWrap pay := by
  induction L with
  | nil =>
    intro k0 t pay hpay _
    simp at hpay
  | cons pay0 rest ih =>
    intro k0 t pay hpay hfree
    cases t with
    | zero =>
      simp only [List.getElem?_cons_zero, Option.some.injEq] at hpay
      subst hpay
      rw [Nat.add_zero, applyCdataMapFrom]
      have hstep : pyReplace (placeholderTok k0) (cdataWrap pay0) (placeholderTok k0)
          = cdataWrap pay0 := by
        rw [tok_cons k0]
        exact pyReplace_exact _ _ _
      rw [hstep]
      exact applyCdataMapFrom_id rest (k0 + 1)
        (wrap_stem_free (hfree pay0 (List.mem_cons_self pay0 rest)))
    | succ t2 =>
      simp only [List.getElem?_cons_succ] at hpay
      rw [applyCdataMapFrom]
      have hstep : pyReplace (placeholderTok k0) (cdataWrap pay0)
          (placeholderTok (k0 + (t2 + 1))) = placeholderTok (k0 + (t2 + 1)) :=
        pyReplace_id _ (tok_contains_tok (by omega))
      rw [hstep]
      have hrec := ih (k0 + 1) t2 pay hpay (fun x hx => hfree x (List.mem_cons_of_mem pay0 hx))
      rw [show k0 + 1 + t2 = k0 + (t2 + 1) by omega] at hrec
      exact hrec

lemma qexp_cons_ne (c : Char) (hc : c ≠ '"') (cu : List Char) :
    (c :: cu).flatMap qexpChar = c :: cu.flatMap qexpChar := by
  simp [qexpChar, hc]

lemma qexp_cons_quot (cu : List Char) :
    ('"' :: cu).flatMap qexpChar
      = '&' :: 'q' :: 'u' :: 'o' :: 't' :: ';' :: cu.flatMap qexpChar := by
  simp [qexpChar]

lemma sw_qexp : ∀ (u pat : List Char), (∀ pc ∈ pat, pc ≠ '"' ∧ pc ≠ '&') →
    startsWithTok pat (u.flatMap qexpChar) = startsWithTok pat u := by
  intro u
  induction u with
  | nil =>
    intro pat hp
    rw [List.flatMap_nil]
  | cons c cu ih =>
    intro pat hp
    cases pat with
    | nil => rfl
    | cons p ps =>
      have hp0 := hp p (List.mem_cons_self p ps)
      by_cases hc : c = '"'
      · subst hc
        rw [qexp_cons_quot, sw_head_ne _ _ hp0.2, sw_head_ne _ _ hp0.1]
      · rw [qexp_cons_ne c hc, sw_cons_unfold, sw_cons_unfold,
          ih ps (fun q hq => hp q (List.mem_cons_of_mem p hq))]

lemma ct_stem_qexp (u : List Char) :
    containsTok placeholderStem (u.flatMap qexpChar) = containsTok placeholderStem u := by
  induction u with
  | nil => rw [List.flatMap_nil]
  | cons c cu ih =>
    by_cases hc : c = '"'
    · subst hc
      rw [qexp_cons_quot, contains_cons_unfold, contains_cons_unfold, contains_cons_unfold,
        contains_cons_unfold, contains_cons_unfold, contains_cons_unfold, contains_cons_unfold,
        ih, stem_cons]
      rw [sw_head_ne _ _ (show '_' ≠ '&' by decide), sw_head_ne _ _ (show '_' ≠ 'q' by decide),
        sw_head_ne _ _ (show '_' ≠ 'u' by decide), sw_head_ne _ _ (show '_' ≠ 'o' by decide),
        sw_head_ne _ _ (show '_' ≠ 't' by decide), sw_head_ne _ _ (show '_' ≠ ';' by decide),
        sw_head_ne _ _ (show '_' ≠ '"' by decide)]
      simp
    · rw [qexp_cons_ne c hc, contains_cons_unfold, contains_cons_unfold, ih,
        ← qexp_cons_ne c hc, sw_qexp (c :: cu) placeholderStem (by decide)]

lemma minidomEscape_cons (c : Char) (cu : List Char)
    (h1 : c ≠ '&') (h2 : c ≠ '<') (h3 : c ≠ '>') :
    minidomEscape (c :: cu) = qexpChar c ++ minidomEscape cu := by
  by_cases hq : c = '"'
  · subst hq
    simp [minidomEscape, qexpChar]
  · simp [minidomEscape, qexpChar, h1, h2, h3, hq]

lemma minidom_qexp (u : List Char)
    (hu : ∀ ch ∈ u, ch ≠ '&' ∧ ch ≠ '<' ∧ ch ≠ '>') :
    minidomEscape u = u.flatMap qexpChar := by
  induction u with
  | nil => rfl
  | cons c cu ih =>
    obtain ⟨h1, h2, h3⟩ := hu c (List.mem_cons_self c cu)
    rw [minidomEscape_cons c cu h1 h2 h3, List.flatMap_cons,
      ih (fun ch hch => hu ch (List.mem_cons_of_mem c hch))]

/-- C6 (counterexample): the claim says render-then-parse recovers every
in-limit code exactly, including codes with markup-special characters.
For the group code `A&B` (3 characters, within the 25-character limit)
the builder stores `escape("A&B") = "A&amp;B"`, the serialization
pipeline escapes that stored text once more (and the placeholder
substitution pass leaves it unchanged), and a conforming reader
therefore recovers `A&amp;B`, not `A&B`. -/
theorem C6_roundtrip_counterexample :
    create_aggregation_xml [['A', '&', 'B']] [['i']] "9726009063"
      = .ok { lpTin := "9726009063"
              packs := [{ pack_code := "A&amp;B".data, cis := [['i']] }] }
    ∧ parsePackCodeField (renderPackCodeField [['i']] "A&amp;B".data) ≠ ['A', '&', 'B'] := by
  constructor
  · rfl
  · rw [renderPackCodeField, parsePackCodeField, xmlUnescape_escapeAmpLtGt,
      applyCdataMap, applyCdataMapFrom_id [['i']] 0 (by decide),
      xmlUnescape_minidomEscape]
    decide

/-- C6 (amended): render-then-parse recovers the codes exactly when,
additionally, group codes contain none of the markup-special characters
`&`, `<`, `>` (double escaping makes them unrecoverable) and neither
group nor item codes contain the placeholder stem `__CDATA_CIS_` (the
whole-document byte substitution of `format_xml` would corrupt them),
and item codes do not contain the CDATA terminator `]]>` (which ends
the CDATA section early): under those conditions the `pack_code` at
index `j` parses back to `groupCodes[j]` and the `cis` element of
global item index `k` parses back to `itemCodes[k]`. -/
theorem C6_roundtrip_amended (m s : List (List Char)) (t : String) (d : AggregationDocument)
    (h : create_aggregation_xml m s t = .ok d)
    (hg : ∀ gcode ∈ m, gcode.length ≤ 25
      ∧ (∀ ch ∈ gcode, ch ≠ '&' ∧ ch ≠ '<' ∧ ch ≠ '>')
      ∧ containsTok placeholderStem gcode = false)
    (hs : ∀ it ∈ s, it.length ≤ 21 ∧ hasCdataEnd it = false
      ∧ containsTok placeholderStem it = false)
    (j : Nat) (gj : List Char) (hj : m[j]? = some gj)
    (p : PackContent) (hp : d.packs[j]? = some p)
    (k : Nat) (itk : List Char) (hk : s[k]? = some itk) :
    parsePackCodeField (renderPackCodeField (s.map fun it => it.take 21) p.pack_code) = gj
    ∧ parseCisField (renderCisField (s.map fun it => it.take 21) k) = itk := by
  obtain ⟨h1, h2, rfl⟩ := create_aggregation_xml_ok_inv m s t d h
  rw [create_aggregation_xml_packs_getElem m s t h1 h2 j _
    (create_aggregation_xml_ok m s t h1 h2), hj] at hp
  have hp' : p = mkPackContent s (s.length / m.length) j gj := by
    cases hp
    rfl
  subst hp'
  obtain ⟨hg25, hgchars, hgstem⟩ := hg gj (List.getElem?_mem hj)
  have hpay : (s.map fun it => it.take 21) = s := by
    rw [show (s.map fun it => it.take 21) = s.map id from
      List.map_congr_left (fun it hit => List.take_of_length_le (hs it hit).1), List.map_id]
  rw [hpay]
  constructor
  · show parsePackCodeField (renderPackCodeField s (escapeAmpLtGt (gj.take 25))) = gj
    rw [List.take_of_length_le hg25, escapeAmpLtGt_eq_self gj hgchars]
    have hfree : containsTok placeholderStem (minidomEscape gj) = false := by
      rw [minidom_qexp gj hgchars, ct_stem_qexp]
      exact hgstem
    rw [renderPackCodeField, parsePackCodeField, xmlUnescape_escapeAmpLtGt,
      applyCdataMap, applyCdataMapFrom_id s 0 hfree, xmlUnescape_minidomEscape]
  · obtain ⟨hit21, hitend, hitstem⟩ := hs itk (List.getElem?_mem hk)
    have hreg : applyCdataMap s (placeholderTok k) = cdataWrap itk := by
      rw [applyCdataMap]
      have hr := applyCdataMapFrom_region s 0 k itk hk (fun x hx => (hs x hx).2.2)
      rw [Nat.zero_add] at hr
      exact hr
    have hdrop : ((['<', '!', '[', 'C', 'D', 'A', 'T', 'A', '['] : List Char)
        ++ (itk ++ [']', ']', '>'])).drop 9 = itk ++ [']', ']', '>'] :=
      List.drop_left' rfl
    rw [renderCisField, hreg, parseCisField, cdataWrap, hdrop]
    exact cdataLex_append_terminator itk hitend

/-- Witness for C6 (amended) at group pool `[B1]` and item pool
`[i1, i2]`, pack index 0 and global item index 0. -/
theorem C6_roundtrip_amended_witness :
    parsePackCodeField (renderPackCodeField
        ((["i1".data, "i2".data] : List (List Char)).map fun it => it.take 21)
        ({ pack_code := "B1".data, cis := ["i1".data, "i2".data] } : PackContent).pack_code)
      = "B1".data
    ∧ parseCisField (renderCisField
        ((["i1".data, "i2".data] : List (List Char)).map fun it => it.take 21) 0)
      = "i1".data :=
  C6_roundtrip_amended ["B1".data] ["i1".data, "i2".data] "9726009063"
    { lpTin := "9726009063"
      packs := [{ pack_code := "B1".data, cis := ["i1".data, "i2".data] }] }
    rfl (by decide) (by decide) 0 "B1".data rfl
    { pack_code := "B1".data, cis := ["i1".data, "i2".data] } rfl
    0 "i1".data rfl
